import Mathlib

/-!
Verification development for the zregexp regular-expression library
(C header zregexp.h, C++ wrapper zregexp.hpp).

The engine core (parser, compiler, matcher, scanner, escaper, validator)
is only declared in zregexp.h; its implementation is not part of the
sources, so those functions are modelled from the design document
(sections 3, 4.1 to 4.5, 6 and 7).  The C++ wrapper code in zregexp.hpp
(Regex::compile, Regex::find, Regex::findAll, Match, move operations,
escape, isValidPattern) is embedded directly from the source.

Inputs and patterns are lists of characters; offsets are natural numbers.
-/

deriving instance DecidableEq for Except

-- ===========================================================================
-- Error codes (ZRegexError enum of zregexp.h, lines 277 to 287)
-- ===========================================================================

/-- Error codes of the C enum ZRegexError in zregexp.h. -/
inductive ZRegexError where
  | ok
  | synErr
  | outOfMemory
  | recursionLimit
  | stepLimit
  | invalidGroup
  | unmatchedParen
  | invalidRange
  | unknownErr
deriving DecidableEq, Repr

/-- Classification of error codes that are compile-time SyntaxError subkinds
per design section 7: unmatched parenthesis and invalid character range are
listed there as SyntaxError subkinds, next to the generic code. -/
def isSynKind : ZRegexError → Bool
  | .synErr => true
  | .unmatchedParen => true
  | .invalidRange => true
  | _ => false

-- ===========================================================================
-- Options (ZRegexOptions of zregexp.h, Options of zregexp.hpp)
-- ===========================================================================

/-- Compilation options, mirroring struct Options of zregexp.hpp
(case_insensitive default false, max_recursion_depth default 1000,
max_steps default 1000000). -/
structure COptions where
  case_insensitive : Bool
  max_recursion_depth : Nat
  max_steps : Nat
deriving DecidableEq, Repr

/-- Modelled from the spec: zregexp_default_options (declared in zregexp.h,
implementation not under src); default values per zregexp.hpp Options. -/
def zregexp_default_options : COptions :=
  { case_insensitive := false, max_recursion_depth := 1000, max_steps := 1000000 }

-- ===========================================================================
-- AST (design section 3, data model)
-- ===========================================================================

/-- Modelled from the spec: the AST node variant of design section 3
(Literal, AnyChar, CharClass, Concat, Alternation, Repetition, Group,
Backreference, AnchorStart, AnchorEnd, Lookahead).  Concatenation and
alternation are binary with an explicit empty node. -/
inductive Node where
  | eps
  | lit (c : Char)
  | anyChar
  | cls (ranges : List (Char × Char)) (negated : Bool)
  | seq (a b : Node)
  | alt (a b : Node)
  | rep (a : Node) (lo : Nat) (hi : Option Nat) (greedy : Bool)
  | group (a : Node) (idx : Option Nat)
  | backref (i : Nat)
  | anchorStart
  | anchorEnd
  | look (a : Node) (positive : Bool)
deriving DecidableEq, Repr

-- ===========================================================================
-- Character helpers
-- ===========================================================================

/-- Case folding applied to both operands of every character comparison when
the case-insensitive flag is set (design section 4.2). -/
def foldc (ci : Bool) (c : Char) : Char :=
  if ci then c.toLower else c

/-- Character comparison used by literal instructions. -/
def charEq (ci : Bool) (a b : Char) : Bool :=
  foldc ci a == foldc ci b

/-- Membership of a character in a single class range. -/
def inRange (ci : Bool) (r : Char × Char) (d : Char) : Bool :=
  decide (foldc ci r.1 ≤ foldc ci d) && decide (foldc ci d ≤ foldc ci r.2)

/-- Membership of a character in a character class (set of ranges with a
negation flag, design section 3). -/
def clsMatch (ci : Bool) (rs : List (Char × Char)) (negated : Bool) (d : Char) : Bool :=
  let m := rs.any (fun r => inRange ci r d)
  if negated then !m else m

/-- Ranges of the shorthand digit class. -/
def rangesD : List (Char × Char) := [('0', '9')]

/-- Ranges of the shorthand word class. -/
def rangesW : List (Char × Char) := [('a', 'z'), ('A', 'Z'), ('0', '9'), ('_', '_')]

/-- Ranges of the shorthand whitespace class. -/
def rangesS : List (Char × Char) :=
  [(' ', ' '), ('\t', '\t'), ('\n', '\n'), ('\x0b', '\x0c'), ('\r', '\r')]

/-- Complement ranges of the digit class, for a negated shorthand used
inside a character class. -/
def rangesDneg : List (Char × Char) := [('\x00', '\x2f'), ('\x3a', '￿')]

/-- Complement ranges of the word class. -/
def rangesWneg : List (Char × Char) :=
  [('\x00', '\x2f'), ('\x3a', '\x40'), ('\x5b', '\x5e'), ('\x60', '\x60'), ('\x7b', '￿')]

/-- Complement ranges of the whitespace class. -/
def rangesSneg : List (Char × Char) :=
  [('\x00', '\x08'), ('\x0e', '\x1f'), ('\x21', '￿')]

-- ===========================================================================
-- Capture slots (design section 3: fixed array of 10 optional span pairs)
-- ===========================================================================

/-- Capture slots: one optional span per group index 0 to 9; absent means
the group did not participate in the match. -/
abbrev Slots : Type := List (Option (Nat × Nat))

/-- Initial slots: all ten absent. -/
def slots0 : Slots := List.replicate 10 none

/-- Write one capture slot. -/
def setSlot (sl : Slots) (i : Nat) (v : Option (Nat × Nat)) : Slots :=
  sl.set i v

/-- Read one capture slot (absent when out of range). -/
def getSlot (sl : Slots) (i : Nat) : Option (Nat × Nat) :=
  sl.getD i none

-- ===========================================================================
-- Matcher (design section 4.3): backtracking execution over the AST with a
-- step budget; exhausting the budget yields failure of that attempt.
-- ===========================================================================

/-- Decrement an optional repetition bound. -/
def decMax : Option Nat → Option Nat
  | none => none
  | some m => some (m - 1)

/-- Compare the capture text against the input at a position, folding case
when required.  Used by backreference matching. -/
def strAt (ci : Bool) (s : List Char) : Nat → List Char → Bool
  | _, [] => true
  | pos, c :: rest =>
    match s[pos]? with
    | some d => charEq ci c d && strAt ci s (pos + 1) rest
    | none => false

/-- Modelled from the spec: the backtracking matcher of design section 4.3,
in continuation-passing style over the AST.  The continuation receives the
input cursor and the capture slots; Split alternatives are explored in
order (greedy quantifiers re-enter the body before exiting, design
section 4.2); lookahead runs the inner pattern and restores the cursor;
backreferences compare the exact previously captured text.  The fuel
argument models the configured execution budget: when it runs out the
attempt fails. -/
def mrun : Nat → Node → List Char → Bool → Nat → Slots →
    (Nat → Slots → Option (Nat × Slots)) → Option (Nat × Slots)
  | 0, _, _, _, _, _, _ => none
  | Nat.succ fuel, n, s, ci, pos, slots, k =>
    match n with
    | .eps => k pos slots
    | .lit c =>
      match s[pos]? with
      | some d => if charEq ci c d then k (pos + 1) slots else none
      | none => none
    | .anyChar => if pos < s.length then k (pos + 1) slots else none
    | .cls rs negated =>
      match s[pos]? with
      | some d => if clsMatch ci rs negated d then k (pos + 1) slots else none
      | none => none
    | .seq a b => mrun fuel a s ci pos slots (fun p sl => mrun fuel b s ci p sl k)
    | .alt a b =>
      match mrun fuel a s ci pos slots k with
      | some r => some r
      | none => mrun fuel b s ci pos slots k
    | .rep a lo hi g =>
      match lo with
      | Nat.succ lo1 =>
        mrun fuel a s ci pos slots
          (fun p sl => mrun fuel (.rep a lo1 (decMax hi) g) s ci p sl k)
      | 0 =>
        match hi with
        | some 0 => k pos slots
        | _ =>
          if g then
            match mrun fuel a s ci pos slots
                (fun p sl => mrun fuel (.rep a 0 (decMax hi) g) s ci p sl k) with
            | some r => some r
            | none => k pos slots
          else
            match k pos slots with
            | some r => some r
            | none =>
              mrun fuel a s ci pos slots
                (fun p sl => mrun fuel (.rep a 0 (decMax hi) g) s ci p sl k)
    | .group a idx =>
      match idx with
      | none => mrun fuel a s ci pos slots k
      | some i =>
        mrun fuel a s ci pos slots (fun p sl => k p (setSlot sl i (some (pos, p))))
    | .backref i =>
      match getSlot slots i with
      | some (b, e) =>
        if strAt ci s pos ((s.drop b).take (e - b)) then
          k (pos + ((s.drop b).take (e - b)).length) slots
        else none
      | none => none
    | .anchorStart => if pos = 0 then k pos slots else none
    | .anchorEnd => if pos = s.length then k pos slots else none
    | .look a positive =>
      match mrun fuel a s ci pos slots (fun p sl => some (p, sl)) with
      | some (_, sl) => if positive then k pos sl else none
      | none => if positive then none else k pos slots

/-- Modelled from the spec: one matching attempt at a fixed start offset
(design section 4.3).  On acceptance slot 0 is finalized to the pair of the
start offset and the final cursor. -/
def runAt (fuel : Nat) (n : Node) (ci : Bool) (s : List Char) (start : Nat) :
    Option (Nat × Slots) :=
  mrun fuel n s ci start slots0 (fun p sl => some (p, setSlot sl 0 (some (start, p))))

-- ===========================================================================
-- Parser (design section 4.1): recursive descent, modelled from the spec
-- since the implementation behind zregexp_compile is not under src.
-- ===========================================================================

/-- Parse-time failure modes, each a distinct SyntaxError subkind per design
section 4.1 (unmatched parenthesis, invalid or reversed character range,
dangling quantifier, capture or backreference index outside 1 to 9, invalid
or incomplete escape sequence, unterminated class, malformed bounds). -/
inductive PErr where
  | unmatchedParen
  | invalidRange
  | danglingQuant
  | badEscape
  | untermClass
  | invalidGroup
  | badRepeat
  | fuelOut
deriving DecidableEq, Repr

/-- Map a parse failure onto the C error enum of zregexp.h. -/
def PErr.toCode : PErr → ZRegexError
  | .unmatchedParen => .unmatchedParen
  | .invalidRange => .invalidRange
  | .invalidGroup => .invalidGroup
  | .fuelOut => .unknownErr
  | _ => .synErr

/-- Parse the body of a character class up to the closing bracket, returning
the collected ranges and the rest of the pattern.  Shorthand escapes are
usable inside classes (design section 4.1); a reversed range is an
invalidRange failure; a missing closing bracket is an unterminated class. -/
def parseClsItems : List Char → Except PErr (List (Char × Char) × List Char)
  | [] => .error .untermClass
  | ']' :: rest => .ok ([], rest)
  | '\\' :: [] => .error .badEscape
  | '\\' :: c :: rest =>
    match c with
    | 'd' => (parseClsItems rest).map (fun pr => (rangesD ++ pr.1, pr.2))
    | 'D' => (parseClsItems rest).map (fun pr => (rangesDneg ++ pr.1, pr.2))
    | 'w' => (parseClsItems rest).map (fun pr => (rangesW ++ pr.1, pr.2))
    | 'W' => (parseClsItems rest).map (fun pr => (rangesWneg ++ pr.1, pr.2))
    | 's' => (parseClsItems rest).map (fun pr => (rangesS ++ pr.1, pr.2))
    | 'S' => (parseClsItems rest).map (fun pr => (rangesSneg ++ pr.1, pr.2))
    | 'n' => (parseClsItems rest).map (fun pr => (('\n', '\n') :: pr.1, pr.2))
    | 't' => (parseClsItems rest).map (fun pr => (('\t', '\t') :: pr.1, pr.2))
    | 'r' => (parseClsItems rest).map (fun pr => (('\r', '\r') :: pr.1, pr.2))
    | _ =>
      if c.isAlphanum then .error .badEscape
      else (parseClsItems rest).map (fun pr => ((c, c) :: pr.1, pr.2))
  | c :: '-' :: ']' :: rest => .ok ([(c, c), ('-', '-')], rest)
  | c :: '-' :: d :: rest =>
    if d = '\\' then .error .badEscape
    else if c ≤ d then (parseClsItems rest).map (fun pr => ((c, d) :: pr.1, pr.2))
    else .error .invalidRange
  | c :: rest => (parseClsItems rest).map (fun pr => ((c, c) :: pr.1, pr.2))

/-- Split a leading run of decimal digits off a character list. -/
def takeDigits : List Char → List Char × List Char
  | [] => ([], [])
  | c :: rest =>
    if c.isDigit then
      let pr := takeDigits rest
      (c :: pr.1, pr.2)
    else ([], c :: rest)

/-- Decimal value of a digit list. -/
def digitsToNat (ds : List Char) : Nat :=
  ds.foldl (fun a c => a * 10 + (c.toNat - 48)) 0

/-- Parse the inside of a bounds quantifier after the opening brace:
either m, or m comma, or m comma n (n not below m), each closed by the
closing brace; anything else is a malformed-bounds failure. -/
def parseBounds (cs : List Char) : Except PErr (Nat × Option Nat × List Char) :=
  let pr1 := takeDigits cs
  if pr1.1.isEmpty then .error .badRepeat
  else
    let m := digitsToNat pr1.1
    match pr1.2 with
    | '\x7d' :: r2 => .ok (m, some m, r2)
    | ',' :: '\x7d' :: r2 => .ok (m, none, r2)
    | ',' :: r2 =>
      let pr2 := takeDigits r2
      if pr2.1.isEmpty then .error .badRepeat
      else
        match pr2.2 with
        | '\x7d' :: r3 =>
          let n := digitsToNat pr2.1
          if n < m then .error .badRepeat else .ok (m, some n, r3)
        | _ => .error .badRepeat
    | _ => .error .badRepeat

/-- Meaning of an escape sequence outside a character class: shorthand
classes, backreferences 1 to 9, control characters, or an escaped literal;
an alphanumeric escape with no meaning is an invalid escape. -/
def escAtom (c : Char) : Except PErr Node :=
  match c with
  | 'd' => .ok (.cls rangesD false)
  | 'D' => .ok (.cls rangesD true)
  | 'w' => .ok (.cls rangesW false)
  | 'W' => .ok (.cls rangesW true)
  | 's' => .ok (.cls rangesS false)
  | 'S' => .ok (.cls rangesS true)
  | 'n' => .ok (.lit '\n')
  | 't' => .ok (.lit '\t')
  | 'r' => .ok (.lit '\r')
  | _ =>
    if '1' ≤ c ∧ c ≤ '9' then .ok (.backref (c.toNat - 48))
    else if c.isAlphanum then .error .badEscape
    else .ok (.lit c)

/-- Grammar level of the recursive-descent parser (design section 4.1):
alternation, concatenation, repetition, atom. -/
inductive PMode where
  | palt
  | pcat
  | prep
  | patom
deriving DecidableEq, Repr

/-- Modelled from the spec: the recursive-descent parser of design
section 4.1 over the grammar alternation, concat, repetition, atom.  The
third component of a successful result is the number of capturing groups
assigned so far (indices are handed out left to right starting at 1, and a
tenth capturing group fails with the invalid-group code).  The fuel bounds
the descent; the top entry point supplies enough for any pattern. -/
def parseL : Nat → PMode → List Char → Nat → Except PErr (Node × List Char × Nat)
  | 0, _, _, _ => .error .fuelOut
  | Nat.succ f, PMode.palt, cs, cap =>
    match parseL f PMode.pcat cs cap with
    | .error e => .error e
    | .ok (n1, rest, cap1) =>
      match rest with
      | '|' :: rest2 =>
        match parseL f PMode.palt rest2 cap1 with
        | .error e => .error e
        | .ok (n2, rest3, cap2) => .ok (.alt n1 n2, rest3, cap2)
      | _ => .ok (n1, rest, cap1)
  | Nat.succ f, PMode.pcat, cs, cap =>
    match cs with
    | [] => .ok (.eps, [], cap)
    | ')' :: _ => .ok (.eps, cs, cap)
    | '|' :: _ => .ok (.eps, cs, cap)
    | _ =>
      match parseL f PMode.prep cs cap with
      | .error e => .error e
      | .ok (n1, rest, cap1) =>
        match parseL f PMode.pcat rest cap1 with
        | .error e => .error e
        | .ok (n2, rest2, cap2) => .ok (.seq n1 n2, rest2, cap2)
  | Nat.succ f, PMode.prep, cs, cap =>
    match parseL f PMode.patom cs cap with
    | .error e => .error e
    | .ok (n1, rest, cap1) =>
      match rest with
      | '*' :: r2 => .ok (.rep n1 0 none true, r2, cap1)
      | '+' :: r2 => .ok (.rep n1 1 none true, r2, cap1)
      | '?' :: r2 => .ok (.rep n1 0 (some 1) true, r2, cap1)
      | '\x7b' :: r2 =>
        match parseBounds r2 with
        | .error e => .error e
        | .ok (m, hi, r3) => .ok (.rep n1 m hi true, r3, cap1)
      | _ => .ok (n1, rest, cap1)
  | Nat.succ f, PMode.patom, cs, cap =>
    match cs with
    | [] => .error .danglingQuant
    | '(' :: '?' :: ':' :: rest =>
      match parseL f PMode.palt rest cap with
      | .error e => .error e
      | .ok (n1, rest2, cap1) =>
        match rest2 with
        | ')' :: r3 => .ok (.group n1 none, r3, cap1)
        | _ => .error .unmatchedParen
    | '(' :: '?' :: '=' :: rest =>
      match parseL f PMode.palt rest cap with
      | .error e => .error e
      | .ok (n1, rest2, cap1) =>
        match rest2 with
        | ')' :: r3 => .ok (.look n1 true, r3, cap1)
        | _ => .error .unmatchedParen
    | '(' :: '?' :: '!' :: rest =>
      match parseL f PMode.palt rest cap with
      | .error e => .error e
      | .ok (n1, rest2, cap1) =>
        match rest2 with
        | ')' :: r3 => .ok (.look n1 false, r3, cap1)
        | _ => .error .unmatchedParen
    | '(' :: '?' :: _ => .error .badEscape
    | '(' :: rest =>
      if 9 ≤ cap then .error .invalidGroup
      else
        match parseL f PMode.palt rest (cap + 1) with
        | .error e => .error e
        | .ok (n1, rest2, cap1) =>
          match rest2 with
          | ')' :: r3 => .ok (.group n1 (some (cap + 1)), r3, cap1)
          | _ => .error .unmatchedParen
    | '.' :: rest => .ok (.anyChar, rest, cap)
    | '^' :: rest => .ok (.anchorStart, rest, cap)
    | '$' :: rest => .ok (.anchorEnd, rest, cap)
    | '[' :: '^' :: rest =>
      match parseClsItems rest with
      | .error e => .error e
      | .ok (rs, r2) => .ok (.cls rs true, r2, cap)
    | '[' :: rest =>
      match parseClsItems rest with
      | .error e => .error e
      | .ok (rs, r2) => .ok (.cls rs false, r2, cap)
    | '\\' :: [] => .error .badEscape
    | '\\' :: c :: rest =>
      match escAtom c with
      | .error e => .error e
      | .ok n1 => .ok (n1, rest, cap)
    | '*' :: _ => .error .danglingQuant
    | '+' :: _ => .error .danglingQuant
    | '?' :: _ => .error .danglingQuant
    | '\x7b' :: _ => .error .danglingQuant
    | ')' :: _ => .error .unmatchedParen
    | '|' :: _ => .error .danglingQuant
    | c :: rest => .ok (.lit c, rest, cap)

/-- Modelled from the spec: Parser.parse of design section 4.1 over a whole
pattern.  Parsing is total over the pattern: leftover input (necessarily a
stray closing parenthesis, the only character the descent stops at) is an
unmatched-parenthesis failure. -/
def parsePattern (p : List Char) : Except PErr Node :=
  match parseL (4 * p.length + 8) PMode.palt p 0 with
  | .error e => .error e
  | .ok (n, [], _) => .ok n
  | .ok (_, _ :: _, _) => .error .unmatchedParen


-- ===========================================================================
-- Compilation (zregexp_compile of zregexp.h; Regex::compile of zregexp.hpp)
-- ===========================================================================

/-- Modelled from the spec: the compiled Program handle behind the opaque
ZRegex pointer of zregexp.h.  Per design sections 3 and 4.2 the Program is
an immutable executable form of the parsed pattern together with the
options consulted during matching; the executable form is kept here as the
AST that the matcher of section 4.3 runs directly. -/
structure ZRegexHandle where
  prog : Node
  caseInsensitive : Bool
  maxSteps : Nat
deriving DecidableEq, Repr

/-- Modelled from the spec: zregexp_compile (declared at zregexp.h line 104,
implementation not under src): Parser.parse followed by the total
translation of the AST into the Program; on failure the specific error code
is reported and no handle is produced. -/
def zregexp_compile (pattern : String) (opts : COptions) :
    Except ZRegexError ZRegexHandle :=
  match parsePattern pattern.data with
  | .error e => .error e.toCode
  | .ok ast => .ok ⟨ast, opts.case_insensitive, opts.max_steps⟩

/-- The C++ Regex wrapper (zregexp.hpp lines 115 to 225): owns a compiled
handle. -/
structure Regex where
  handle : ZRegexHandle
deriving DecidableEq, Repr

/-- Regex::compile (zregexp.hpp lines 125 to 135): returns the wrapped
handle, or propagates the error code reported by the failed compilation
(the thrown RegexError carries zregexp_last_error). -/
def Regex.compile (pattern : String) (opts : COptions) : Except ZRegexError Regex :=
  match zregexp_compile pattern opts with
  | .error e => .error e
  | .ok h => .ok ⟨h⟩

/-- Modelled from the spec: zregexp_is_valid_pattern (declared at
zregexp.h line 332): attempts parse and compile, discards the result, and
reports whether both succeeded (design section 4.5). -/
def zregexp_is_valid_pattern (pattern : String) : Bool :=
  match zregexp_compile pattern zregexp_default_options with
  | .ok _ => true
  | .error _ => false

/-- isValidPattern (zregexp.hpp lines 402 to 404): direct forward to
zregexp_is_valid_pattern. -/
def isValidPattern (pattern : String) : Bool :=
  zregexp_is_valid_pattern pattern

-- ===========================================================================
-- Match results and the scanner
-- ===========================================================================

/-- Modelled from the spec: the match result behind the opaque ZMatch
pointer of zregexp.h: start and end offsets (end exclusive), the ten
capture slots, and the input buffer the offsets refer to (design
section 3, MatchResult). -/
structure ZMatch where
  mstart : Nat
  mend : Nat
  slots : Slots
  minput : List Char
deriving DecidableEq, Repr

/-- Modelled from the spec: zregexp_match_slice (zregexp.h line 175): the
full matched text, the slice of the match input between the two offsets. -/
def zregexp_match_slice (m : ZMatch) : List Char :=
  (m.minput.drop m.mstart).take (m.mend - m.mstart)

/-- zregexp_match_start (zregexp.h line 183). -/
def zregexp_match_start (m : ZMatch) : Nat := m.mstart

/-- zregexp_match_end (zregexp.h line 191). -/
def zregexp_match_end (m : ZMatch) : Nat := m.mend

/-- Modelled from the spec: zregexp_match_group (zregexp.h lines 193 to
207, implementation not under src).  Per design sections 6 and 7, asking
for a slot outside 0 to 9 surfaces the InvalidGroupIndex error kind (the C
enum code ZREGEXP_ERROR_INVALID_GROUP reported through the last-error
channel) with no text, while an in-range group that did not participate
yields no text with no error.  The pair returned here is the function
result together with the reported error code. -/
def zregexp_match_group (m : ZMatch) (i : Nat) : Option (List Char) × ZRegexError :=
  if 9 < i then (none, .invalidGroup)
  else
    match getSlot m.slots i with
    | some (b, e) => (some ((m.minput.drop b).take (e - b)), .ok)
    | none => (none, .ok)

/-- Match::group of zregexp.hpp lines 309 to 317: forwards to
zregexp_match_group and keeps only the optional text, discarding the error
channel. -/
def matchGroupCpp (m : ZMatch) (i : Nat) : Option (List Char) :=
  (zregexp_match_group m i).1

/-- Modelled from the spec: zregexp_find (zregexp.h line 131,
implementation not under src): the scanner of design section 4.4 tries the
matcher at start offset 0, then 1, and so on up to the input length, and
returns the first success (leftmost-first) or nothing. -/
def zregexp_find (re : ZRegexHandle) (s : List Char) : Option ZMatch :=
  (List.range (s.length + 1)).findSome? fun o =>
    match runAt re.maxSteps re.prog re.caseInsensitive s o with
    | some pr => some ⟨o, pr.1, pr.2, s⟩
    | none => none

/-- Modelled from the spec: zregexp_is_match (zregexp.h line 163). -/
def zregexp_is_match (re : ZRegexHandle) (s : List Char) : Bool :=
  (zregexp_find re s).isSome

/-- The C++ Match wrapper (zregexp.hpp lines 234 to 327): owns the C match
handle together with the input string it was created from (the constructor
takes the string by value and stores it in the field input_). -/
structure CppMatch where
  m : ZMatch
  input_ : List Char
deriving DecidableEq, Repr

/-- Regex::find (zregexp.hpp lines 333 to 339): run zregexp_find on the
input and wrap the handle with that input. -/
def Regex.find (re : Regex) (input : List Char) : Option CppMatch :=
  match zregexp_find re.handle input with
  | some cm => some ⟨cm, input⟩
  | none => none

/-- The offset update of the Regex::findAll loop (zregexp.hpp lines 363 to
369): advance past the match, or by one when the local end offset is zero
(comment in source: empty match, advance by 1 to avoid infinite loop). -/
def nextOffset (offset localEnd : Nat) : Nat :=
  if localEnd = 0 then offset + 1 else offset + localEnd

/-- The Regex::findAll scan loop (zregexp.hpp lines 341 to 373), recorded
as the list of pairs of the global offset of each iteration and the match
found against the remaining suffix at that offset.  The loop runs while
the offset is at most the input length, searches the suffix from the
offset, stops at the first failure, and otherwise advances by nextOffset.
The second countdown argument is a bound on the number of iterations; the
loop strictly increases the offset, so input length plus one iterations
always suffice. -/
def findAllTraceGo (re : ZRegexHandle) (input : List Char) :
    Nat → Nat → List (Nat × ZMatch)
  | _, 0 => []
  | offset, Nat.succ f2 =>
    if offset ≤ input.length then
      match zregexp_find re (input.drop offset) with
      | none => []
      | some m => (offset, m) :: findAllTraceGo re input (nextOffset offset m.mend) f2
    else []

/-- The full trace of the Regex::findAll loop from offset 0. -/
def findAllTrace (re : ZRegexHandle) (input : List Char) : List (Nat × ZMatch) :=
  findAllTraceGo re input 0 (input.length + 1)

/-- Regex::findAll (zregexp.hpp lines 341 to 373): each found match is
stored together with the remaining substring it was searched in
(matches.emplace_back(c_match, remaining)). -/
def Regex.findAll (re : Regex) (input : List Char) : List CppMatch :=
  (findAllTrace re.handle input).map fun om => ⟨om.2, input.drop om.1⟩

-- ===========================================================================
-- Escaper (design section 4.5; zregexp_escape and the hpp wrapper)
-- ===========================================================================

/-- The regex metacharacters listed in design section 4.5. -/
def metaChars : List Char :=
  ['.', '*', '+', '?', '(', ')', '[', ']', '\x7b', '\x7d', '^', '$', '|', '\\']

/-- Modelled from the spec: zregexp_escape (zregexp.h line 324,
implementation not under src): prefix every metacharacter with a backslash
and leave every other character unchanged (design section 4.5). -/
def zregexp_escape (input : List Char) : List Char :=
  (input.map fun c => if c ∈ metaChars then ['\\', c] else [c]).flatten

/-- escape of zregexp.hpp lines 385 to 394: forwards to zregexp_escape
(the null fallback branch is unreachable in the model). -/
def escape (input : List Char) : List Char :=
  zregexp_escape input

-- ===========================================================================
-- Move semantics of the RAII wrappers (zregexp.hpp: Regex lines 140 to
-- 169, Match lines 245 to 272).  Both wrappers use the same discipline on
-- the owned C handle; it is modelled once as a state machine over wrapper
-- objects identified by allocation order.
-- ===========================================================================

/-- System state for the wrapper-object model: objs maps each object index
to the handle it holds (none models a null handle pointer), next is the
count of objects constructed so far (indices at and above it do not exist
yet), and freed records every handle passed to the free function, in
order. -/
structure WState where
  objs : Nat → Option Nat
  next : Nat
  freed : List Nat

/-- Wrapper-object operations: move construction of a new object from a
source, move assignment, and destruction. -/
inductive WOp where
  | moveNew (src : Nat)
  | moveAssign (dst src : Nat)
  | destroy (i : Nat)
deriving DecidableEq, Repr

/-- One wrapper operation, following zregexp.hpp.  Move construction
(lines 140 to 142 and 245 to 248) copies the source handle into the new
object and nulls the source.  Move assignment (lines 147 to 156 and 253 to
263) does nothing on self assignment; otherwise it frees the destination
handle when non-null, takes the source handle, and nulls the source.  The
destructor (lines 161 to 165 and 268 to 272) frees the handle only when it
is non-null.  Operations naming objects that do not exist do nothing. -/
def stepOp (s : WState) : WOp → WState
  | .moveNew src =>
    if src < s.next then
      { objs := fun j => if j = s.next then s.objs src
                         else if j = src then none
                         else s.objs j,
        next := s.next + 1,
        freed := s.freed }
    else s
  | .moveAssign dst src =>
    if dst < s.next ∧ src < s.next ∧ dst ≠ src then
      { objs := fun j => if j = dst then s.objs src
                         else if j = src then none
                         else s.objs j,
        next := s.next,
        freed := match s.objs dst with
                 | some h => h :: s.freed
                 | none => s.freed }
    else s
  | .destroy i =>
    if i < s.next then
      { objs := fun j => if j = i then none else s.objs j,
        next := s.next,
        freed := match s.objs i with
                 | some h => h :: s.freed
                 | none => s.freed }
    else s

/-- Run a sequence of wrapper operations. -/
def runOps (s : WState) : List WOp → WState
  | [] => s
  | op :: rest => runOps (stepOp s op) rest

/-- The ownership invariant: at most one object holds any given handle, no
held handle has been freed, no handle is freed twice, and objects not yet
constructed hold nothing. -/
def WInv (s : WState) : Prop :=
  (∀ i j h, s.objs i = some h → s.objs j = some h → i = j)
  ∧ (∀ i h, s.objs i = some h → h ∉ s.freed)
  ∧ s.freed.Nodup
  ∧ (∀ i, s.next ≤ i → s.objs i = none)

-- ===========================================================================
-- Concrete objects used by the concrete-scenario theorems
-- ===========================================================================

/-- Compile a pattern with default options, falling back to an inert handle
on failure (all uses below compile successfully). -/
def compiledOr (p : String) : Regex :=
  match Regex.compile p zregexp_default_options with
  | .ok r => r
  | .error _ => ⟨⟨.eps, false, 0⟩⟩

/-- The input of the find-all scenario in design section 8. -/
def applesInput : List Char := "There are 123 apples and 456 oranges".data

/-- The digit pattern of the find-all scenario, compiled. -/
def digitsRe : Regex := compiledOr "\\d+"

/-- The end-anchor pattern, compiled; its only matches are empty. -/
def dollarRe : Regex := compiledOr "$"

/-- A concrete match result: the digit pattern matched on the single
character 7, whole match spanning offsets 0 to 1. -/
def mW : ZMatch := ⟨0, 1, setSlot slots0 0 (some (0, 1)), "7".data⟩

/-- The concrete match mW wrapped the way Regex::find wraps it, together
with the input it was found in. -/
def cmW : CppMatch := ⟨mW, "7".data⟩

/-- A concrete wrapper-model state: one constructed object holding
handle 42, nothing freed yet. -/
def s0W : WState :=
  { objs := fun j => if j = 0 then some 42 else none, next := 1, freed := [] }

-- ===========================================================================
-- Helper lemmas
-- ===========================================================================

theorem findSome?_mem {α β : Type} (l : List α) (f : α → Option β) (b : β)
    (h : l.findSome? f = some b) : ∃ a ∈ l, f a = some b := by
  induction l with
  | nil => simp [List.findSome?] at h
  | cons x xs ih =>
    rw [List.findSome?_cons] at h
    cases hx : f x with
    | some v =>
      rw [hx] at h
      simp only [] at h
      exact ⟨x, by simp, by rw [hx, h]⟩
    | none =>
      rw [hx] at h
      simp only [] at h
      obtain ⟨a, ha, hfa⟩ := ih h
      exact ⟨a, by simp [ha], hfa⟩

theorem getElem?_lt {s : List Char} {i : Nat} {c : Char}
    (h : s[i]? = some c) : i < s.length := by
  by_contra hlt
  rw [List.getElem?_eq_none (by omega)] at h
  exact Option.noConfusion h

theorem strAt_le (ci : Bool) (s : List Char) :
    ∀ (cap : List Char) (pos : Nat), strAt ci s pos cap = true →
      pos ≤ s.length → pos + cap.length ≤ s.length := by
  intro cap
  induction cap with
  | nil => intro pos _ hp; simpa using hp
  | cons c rest ih =>
    intro pos h hp
    rw [strAt] at h
    cases hx : s[pos]? with
    | none => rw [hx] at h; exact absurd h (by simp)
    | some d =>
      rw [hx] at h
      simp only [Bool.and_eq_true] at h
      have hlt : pos < s.length := getElem?_lt hx
      have := ih (pos + 1) h.2 (by omega)
      simp only [List.length_cons]
      omega

theorem mrun_inv (Q : Nat × Slots → Prop) :
    ∀ (fuel : Nat) (n : Node) (s : List Char) (ci : Bool) (pos : Nat) (slots : Slots)
      (k : Nat → Slots → Option (Nat × Slots)),
      pos ≤ s.length →
      (∀ p sl r, pos ≤ p → p ≤ s.length → k p sl = some r → Q r) →
      ∀ r, mrun fuel n s ci pos slots k = some r → Q r := by
  intro fuel
  induction fuel with
  | zero =>
    intro n s ci pos slots k _ _ r h
    simp [mrun] at h
  | succ f ih =>
    intro n s ci pos slots k hpos hk r h
    have loopstep : ∀ (a b : Node) (sl0 : Slots),
        mrun f a s ci pos sl0 (fun p sl => mrun f b s ci p sl k) = some r → Q r := by
      intro a b sl0 hh
      refine ih a s ci pos sl0 _ hpos ?_ r hh
      intro p sl r1 hp hpl hb
      refine ih b s ci p sl k hpl ?_ r1 hb
      intro p2 sl2 r2 hp2 hp2l hk2
      exact hk p2 sl2 r2 (le_trans hp hp2) hp2l hk2
    cases n with
    | eps =>
      simp only [mrun] at h
      exact hk pos slots r le_rfl hpos h
    | lit c =>
      simp only [mrun] at h
      split at h
      · split at h
        · exact hk _ _ _ (by omega)
            (by rename_i d hd _; have := getElem?_lt hd; omega) h
        · exact absurd h (by simp)
      · exact absurd h (by simp)
    | anyChar =>
      simp only [mrun] at h
      split at h
      · exact hk _ _ _ (by omega) (by omega) h
      · exact absurd h (by simp)
    | cls rs negated =>
      simp only [mrun] at h
      split at h
      · split at h
        · exact hk _ _ _ (by omega)
            (by rename_i d hd _; have := getElem?_lt hd; omega) h
        · exact absurd h (by simp)
      · exact absurd h (by simp)
    | seq a b =>
      simp only [mrun] at h
      exact loopstep a b slots h
    | alt a b =>
      simp only [mrun] at h
      split at h
      · rename_i r0 hr0
        obtain rfl : r0 = r := by injection h
        exact ih a s ci pos slots k hpos hk _ hr0
      · exact ih b s ci pos slots k hpos hk r h
    | rep a lo hi g =>
      cases lo with
      | succ lo1 =>
        simp only [mrun] at h
        exact loopstep a (.rep a lo1 (decMax hi) g) slots h
      | zero =>
        simp only [mrun] at h
        split at h
        · exact hk pos slots r le_rfl hpos h
        · split at h
          · split at h
            · rename_i r0 hr0
              obtain rfl : r0 = r := by injection h
              exact loopstep a (.rep a 0 (decMax hi) g) slots hr0
            · exact hk pos slots r le_rfl hpos h
          · split at h
            · rename_i r0 hr0
              obtain rfl : r0 = r := by injection h
              exact hk pos slots _ le_rfl hpos hr0
            · exact loopstep a (.rep a 0 (decMax hi) g) slots h
    | group a idx =>
      simp only [mrun] at h
      split at h
      · exact ih a s ci pos slots k hpos hk r h
      · rename_i i
        refine ih a s ci pos slots _ hpos ?_ r h
        intro p sl r1 hp hpl hb
        exact hk p (setSlot sl i (some (pos, p))) r1 hp hpl hb
    | backref i =>
      simp only [mrun] at h
      split at h
      · split at h
        · rename_i b e hbe hstr
          refine hk _ _ _ (by omega) ?_ h
          have := strAt_le ci s ((s.drop b).take (e - b)) pos hstr hpos
          omega
        · exact absurd h (by simp)
      · exact absurd h (by simp)
    | anchorStart =>
      simp only [mrun] at h
      split at h
      · exact hk pos slots r le_rfl hpos h
      · exact absurd h (by simp)
    | anchorEnd =>
      simp only [mrun] at h
      split at h
      · exact hk pos slots r le_rfl hpos h
      · exact absurd h (by simp)
    | look a positive =>
      simp only [mrun] at h
      split at h
      · split at h
        · exact hk pos _ r le_rfl hpos h
        · exact absurd h (by simp)
      · split at h
        · exact absurd h (by simp)
        · exact hk pos slots r le_rfl hpos h

theorem runAt_bounds (fuel : Nat) (n : Node) (ci : Bool) (s : List Char)
    (start : Nat) (e : Nat) (sl : Slots) (hs : start ≤ s.length)
    (h : runAt fuel n ci s start = some (e, sl)) :
    start ≤ e ∧ e ≤ s.length := by
  have := mrun_inv (fun r => start ≤ r.1 ∧ r.1 ≤ s.length) fuel n s ci start slots0
    (fun p sl => some (p, setSlot sl 0 (some (start, p)))) hs
    (by
      intro p sl0 r hp hpl hr
      have : r = (p, setSlot sl0 0 (some (start, p))) := by
        injection hr with hr2
        exact hr2.symm
      rw [this]
      exact ⟨hp, hpl⟩)
    (e, sl) h
  exact this

theorem zfind_bounds (re : ZRegexHandle) (s : List Char) (m : ZMatch)
    (h : zregexp_find re s = some m) :
    m.mstart ≤ m.mend ∧ m.mend ≤ s.length ∧ m.minput = s := by
  obtain ⟨o, ho, hf⟩ := findSome?_mem _ _ _ h
  have holt : o < s.length + 1 := List.mem_range.mp ho
  cases hr : runAt re.maxSteps re.prog re.caseInsensitive s o with
  | none => rw [hr] at hf; exact absurd hf (by simp)
  | some pr =>
    rw [hr] at hf
    simp only [] at hf
    obtain rfl : (⟨o, pr.1, pr.2, s⟩ : ZMatch) = m := by injection hf
    have hb := runAt_bounds re.maxSteps re.prog re.caseInsensitive s o pr.1 pr.2
      (by omega) (by rw [hr])
    exact ⟨hb.1, hb.2, rfl⟩

theorem nextOffset_gt (offset localEnd : Nat) : offset < nextOffset offset localEnd := by
  unfold nextOffset
  split <;> omega

theorem findAllTraceGo_len (re : ZRegexHandle) (input : List Char) :
    ∀ (f2 offset : Nat), (findAllTraceGo re input offset f2).length ≤ f2 := by
  intro f2
  induction f2 with
  | zero => intro offset; simp [findAllTraceGo]
  | succ f ih =>
    intro offset
    rw [findAllTraceGo]
    split
    · cases hf : zregexp_find re (input.drop offset) with
      | none => simp
      | some m =>
        simp only [List.length_cons]
        have := ih (nextOffset offset m.mend)
        omega
    · simp

theorem findAllTraceGo_head (re : ZRegexHandle) (input : List Char)
    (f2 offset : Nat) (x : Nat × ZMatch) (rest : List (Nat × ZMatch))
    (h : findAllTraceGo re input offset f2 = x :: rest) : x.1 = offset := by
  cases f2 with
  | zero => simp [findAllTraceGo] at h
  | succ f =>
    rw [findAllTraceGo] at h
    split at h
    · cases hf : zregexp_find re (input.drop offset) with
      | none => rw [hf] at h; exact absurd h (by simp)
      | some m =>
        rw [hf] at h
        simp only [] at h
        simp only [List.cons.injEq] at h
        rw [← h.1]
    · exact absurd h (by simp)

theorem findAllTraceGo_mem_find (re : ZRegexHandle) (input : List Char) :
    ∀ (f2 offset o : Nat) (m : ZMatch),
      (o, m) ∈ findAllTraceGo re input offset f2 →
      zregexp_find re (input.drop o) = some m := by
  intro f2
  induction f2 with
  | zero => intro offset o m h; simp [findAllTraceGo] at h
  | succ f ih =>
    intro offset o m h
    rw [findAllTraceGo] at h
    split at h
    · cases hf : zregexp_find re (input.drop offset) with
      | none => rw [hf] at h; exact absurd h (by simp)
      | some m0 =>
        rw [hf] at h
        simp only [List.mem_cons] at h
        cases h with
        | inl h0 =>
          have h1 : o = offset ∧ m = m0 := by
            simpa [Prod.mk.injEq] using h0
          rw [h1.1, h1.2]
          exact hf
        | inr h0 => exact ih (nextOffset offset m0.mend) o m h0
    · exact absurd h (by simp)

theorem findAllTraceGo_chain (re : ZRegexHandle) (input : List Char) :
    ∀ (f2 offset : Nat),
      List.Chain' (fun a b => b.1 = nextOffset a.1 a.2.mend ∧ a.1 < b.1)
        (findAllTraceGo re input offset f2) := by
  intro f2
  induction f2 with
  | zero => intro offset; simp [findAllTraceGo]
  | succ f ih =>
    intro offset
    rw [findAllTraceGo]
    split
    · cases hf : zregexp_find re (input.drop offset) with
      | none => simp
      | some m =>
        rw [List.chain'_cons']
        refine ⟨?_, ih (nextOffset offset m.mend)⟩
        intro y hy
        cases hrest : findAllTraceGo re input (nextOffset offset m.mend) f with
        | nil => rw [hrest] at hy; simp at hy
        | cons x rest =>
          rw [hrest] at hy
          simp only [List.head?_cons, Option.mem_def, Option.some_inj] at hy
          have hx := findAllTraceGo_head re input f (nextOffset offset m.mend) x rest hrest
          rw [← hy]
          exact ⟨hx, by rw [hx]; exact nextOffset_gt offset m.mend⟩
    · simp

theorem stepOp_inv (s : WState) (op : WOp) (hs : WInv s) : WInv (stepOp s op) := by
  obtain ⟨hdis, hnf, hnd, hnext⟩ := hs
  cases op with
  | moveNew src =>
    by_cases hg : src < s.next
    · simp only [stepOp, if_pos hg]
      have hchar : ∀ j h,
          (if j = s.next then s.objs src else if j = src then none else s.objs j)
            = some h →
          (j = s.next ∧ s.objs src = some h) ∨
          (j ≠ s.next ∧ j ≠ src ∧ s.objs j = some h) := by
        intro j h hj
        by_cases h1 : j = s.next
        · left; exact ⟨h1, by rwa [if_pos h1] at hj⟩
        · right
          rw [if_neg h1] at hj
          by_cases h2 : j = src
          · rw [if_pos h2] at hj; exact absurd hj (by simp)
          · rw [if_neg h2] at hj; exact ⟨h1, h2, hj⟩
      refine ⟨?_, ?_, hnd, ?_⟩
      · intro i j h hi hj
        rcases hchar i h hi with ⟨hi1, hiv⟩ | ⟨hi1, hi2, hiv⟩ <;>
          rcases hchar j h hj with ⟨hj1, hjv⟩ | ⟨hj1, hj2, hjv⟩
        · rw [hi1, hj1]
        · exact absurd (hdis src j h hiv hjv).symm hj2
        · exact absurd (hdis src i h hjv hiv).symm hi2
        · exact hdis i j h hiv hjv
      · intro i h hi
        rcases hchar i h hi with ⟨_, hiv⟩ | ⟨_, _, hiv⟩
        · exact hnf src h hiv
        · exact hnf i h hiv
      · intro i hi
        simp only [] at hi ⊢
        rw [if_neg (by omega), if_neg (by omega)]
        exact hnext i (by omega)
    · simp only [stepOp, if_neg hg]
      exact ⟨hdis, hnf, hnd, hnext⟩
  | moveAssign dst src =>
    by_cases hg : dst < s.next ∧ src < s.next ∧ dst ≠ src
    · simp only [stepOp, if_pos hg]
      have hchar : ∀ j h,
          (if j = dst then s.objs src else if j = src then none else s.objs j)
            = some h →
          (j = dst ∧ s.objs src = some h) ∨
          (j ≠ dst ∧ j ≠ src ∧ s.objs j = some h) := by
        intro j h hj
        by_cases h1 : j = dst
        · left; exact ⟨h1, by rwa [if_pos h1] at hj⟩
        · right
          rw [if_neg h1] at hj
          by_cases h2 : j = src
          · rw [if_pos h2] at hj; exact absurd hj (by simp)
          · rw [if_neg h2] at hj; exact ⟨h1, h2, hj⟩
      have hfreedmem : ∀ h,
          h ∈ (match s.objs dst with
               | some h0 => h0 :: s.freed
               | none => s.freed) →
          (∃ h0, s.objs dst = some h0 ∧ h = h0) ∨ h ∈ s.freed := by
        intro h hmem
        cases hdst : s.objs dst with
        | none => rw [hdst] at hmem; exact Or.inr hmem
        | some h0 =>
          rw [hdst] at hmem
          rcases List.mem_cons.mp hmem with h1 | h1
          · exact Or.inl ⟨h0, rfl, h1⟩
          · exact Or.inr h1
      refine ⟨?_, ?_, ?_, ?_⟩
      · intro i j h hi hj
        rcases hchar i h hi with ⟨hi1, hiv⟩ | ⟨hi1, hi2, hiv⟩ <;>
          rcases hchar j h hj with ⟨hj1, hjv⟩ | ⟨hj1, hj2, hjv⟩
        · rw [hi1, hj1]
        · exact absurd (hdis src j h hiv hjv).symm hj2
        · exact absurd (hdis src i h hjv hiv).symm hi2
        · exact hdis i j h hiv hjv
      · intro i h hi hmem
        rcases hchar i h hi with ⟨hi1, hiv⟩ | ⟨hi1, hi2, hiv⟩
        · rcases hfreedmem h hmem with ⟨h0, hdst, rfl⟩ | h1
          · exact absurd (hdis src dst h hiv hdst) (fun he => hg.2.2 he.symm)
          · exact hnf src h hiv h1
        · rcases hfreedmem h hmem with ⟨h0, hdst, rfl⟩ | h1
          · exact absurd (hdis i dst h hiv hdst) hi1
          · exact hnf i h hiv h1
      · simp only []
        cases hdst : s.objs dst with
        | none => exact hnd
        | some h0 => exact List.nodup_cons.mpr ⟨hnf dst h0 hdst, hnd⟩
      · intro i hi
        simp only [] at hi ⊢
        rw [if_neg (by omega), if_neg (by omega)]
        exact hnext i (by omega)
    · simp only [stepOp, if_neg hg]
      exact ⟨hdis, hnf, hnd, hnext⟩
  | destroy i0 =>
    by_cases hg : i0 < s.next
    · simp only [stepOp, if_pos hg]
      have hchar : ∀ j h,
          (if j = i0 then none else s.objs j) = some h →
          j ≠ i0 ∧ s.objs j = some h := by
        intro j h hj
        by_cases h1 : j = i0
        · rw [if_pos h1] at hj; exact absurd hj (by simp)
        · rw [if_neg h1] at hj; exact ⟨h1, hj⟩
      have hfreedmem : ∀ h,
          h ∈ (match s.objs i0 with
               | some h0 => h0 :: s.freed
               | none => s.freed) →
          (∃ h0, s.objs i0 = some h0 ∧ h = h0) ∨ h ∈ s.freed := by
        intro h hmem
        cases hdst : s.objs i0 with
        | none => rw [hdst] at hmem; exact Or.inr hmem
        | some h0 =>
          rw [hdst] at hmem
          rcases List.mem_cons.mp hmem with h1 | h1
          · exact Or.inl ⟨h0, rfl, h1⟩
          · exact Or.inr h1
      refine ⟨?_, ?_, ?_, ?_⟩
      · intro i j h hi hj
        exact hdis i j h (hchar i h hi).2 (hchar j h hj).2
      · intro i h hi hmem
        obtain ⟨hi1, hiv⟩ := hchar i h hi
        rcases hfreedmem h hmem with ⟨h0, hdst, rfl⟩ | h1
        · exact absurd (hdis i i0 h hiv hdst) hi1
        · exact hnf i h hiv h1
      · simp only []
        cases hdst : s.objs i0 with
        | none => exact hnd
        | some h0 => exact List.nodup_cons.mpr ⟨hnf i0 h0 hdst, hnd⟩
      · intro i hi
        simp only [] at hi ⊢
        rw [if_neg (by omega)]
        exact hnext i hi
    · simp only [stepOp, if_neg hg]
      exact ⟨hdis, hnf, hnd, hnext⟩

theorem runOps_inv : ∀ (ops : List WOp) (s : WState), WInv s → WInv (runOps s ops) := by
  intro ops
  induction ops with
  | nil => intro s hs; exact hs
  | cons op rest ih =>
    intro s hs
    exact ih (stepOp s op) (stepOp_inv s op hs)

theorem toCode_ne_ok : ∀ e : PErr, PErr.toCode e ≠ ZRegexError.ok := by
  intro e
  cases e <;> decide

theorem escape_nomem : ∀ s : List Char, (∀ c ∈ s, c ∉ metaChars) →
    zregexp_escape s = s := by
  intro s
  induction s with
  | nil => intro _; rfl
  | cons c rest ih =>
    intro h
    have h1 : c ∉ metaChars := h c (List.mem_cons_self c rest)
    simp only [zregexp_escape, List.map_cons, List.flatten_cons, if_neg h1,
      List.singleton_append, List.cons.injEq]
    exact ⟨trivial, ih (fun d hd => h d (List.mem_cons_of_mem c hd))⟩

theorem escape_append (s t : List Char) :
    zregexp_escape (s ++ t) = zregexp_escape s ++ zregexp_escape t := by
  unfold zregexp_escape
  rw [List.map_append, List.flatten_append]

theorem escape_single (c : Char) :
    zregexp_escape [c] = if c ∈ metaChars then ['\\', c] else [c] := by
  simp only [zregexp_escape, List.map_cons, List.map_nil, List.flatten_cons,
    List.flatten_nil, List.append_nil]

-- ===========================================================================
-- Claim theorems
-- ===========================================================================

/-- Claim C4: for every match, requesting a capture slot with an index
outside the supported range 0 to 9 surfaces the InvalidGroupIndex error
code (ZREGEXP_ERROR_INVALID_GROUP) with no text, while an in-range group
that did not participate yields no text with the ok code; the two outcomes
are distinguishable because the error codes differ. -/
theorem match_group_invalid_index :
    ∀ (m : ZMatch) (i : Nat),
      (9 < i → zregexp_match_group m i = (none, ZRegexError.invalidGroup))
      ∧ (i ≤ 9 → getSlot m.slots i = none →
          zregexp_match_group m i = (none, ZRegexError.ok))
      ∧ ZRegexError.invalidGroup ≠ ZRegexError.ok := by
  intro m i
  refine ⟨?_, ?_, by decide⟩
  · intro h
    unfold zregexp_match_group
    rw [if_pos h]
  · intro h1 h2
    unfold zregexp_match_group
    rw [if_neg (by omega), h2]

theorem match_group_invalid_index_witness :
    zregexp_match_group mW 10 = (none, ZRegexError.invalidGroup)
    ∧ zregexp_match_group mW 3 = (none, ZRegexError.ok) :=
  ⟨(match_group_invalid_index mW 10).1 (by decide),
   (match_group_invalid_index mW 3).2.1 (by decide) (by decide)⟩

/-- Claim C5: for every pattern string P, isValidPattern P is true exactly
when Regex.compile of P with default options succeeds. -/
theorem is_valid_iff_compile_ok :
    ∀ P : String, isValidPattern P = true ↔
      ∃ r, Regex.compile P zregexp_default_options = Except.ok r := by
  intro P
  unfold isValidPattern zregexp_is_valid_pattern Regex.compile zregexp_compile
  cases parsePattern P.data <;> simp

/-- Claim C6: for every pattern, Regex.compile either returns a wrapped
handle or fails with a specific error code different from the ok code; the
pattern hello(world fails with the unmatched-parenthesis code, which is a
SyntaxError subkind, and is reported invalid by isValidPattern. -/
theorem compile_error_specific :
    (∀ (P : String) (opts : COptions),
        (∃ r, Regex.compile P opts = Except.ok r)
        ∨ (∃ e, Regex.compile P opts = Except.error e ∧ e ≠ ZRegexError.ok))
    ∧ Regex.compile "hello(world" zregexp_default_options
        = Except.error ZRegexError.unmatchedParen
    ∧ isSynKind ZRegexError.unmatchedParen = true
    ∧ isValidPattern "hello(world" = false := by
  refine ⟨?_, by decide, by decide, by decide⟩
  intro P opts
  cases hp : parsePattern P.data with
  | ok ast =>
    refine Or.inl ⟨⟨⟨ast, opts.case_insensitive, opts.max_steps⟩⟩, ?_⟩
    simp [Regex.compile, zregexp_compile, hp]
  | error e =>
    refine Or.inr ⟨e.toCode, ?_, toCode_ne_ok e⟩
    simp [Regex.compile, zregexp_compile, hp]

/-- Claim C7: for every compiled pattern and finite input, the findAll scan
terminates with a finite match list of at most length of input plus one
entries, because every iteration strictly increases the scan offset, which
the loop condition bounds by the input length. -/
theorem findAll_terminates_bounded :
    (∀ (re : Regex) (input : List Char),
        (Regex.findAll re input).length ≤ input.length + 1)
    ∧ (∀ offset localEnd : Nat, offset < nextOffset offset localEnd) := by
  constructor
  · intro re input
    unfold Regex.findAll findAllTrace
    rw [List.length_map]
    exact findAllTraceGo_len re.handle input (input.length + 1) 0
  · exact nextOffset_gt

/-- Claim C8: escape prefixes every metacharacter with a backslash and
leaves all other characters unchanged: it is the identity on text free of
metacharacters, maps hello.world to the text with the dot escaped, is a
homomorphism for append, and on a single character prefixes exactly the
metacharacters. -/
theorem escape_spec :
    (∀ s : List Char, (∀ c ∈ s, c ∉ metaChars) → zregexp_escape s = s)
    ∧ escape "hello.world".data = "hello\\.world".data
    ∧ (∀ s t : List Char,
        zregexp_escape (s ++ t) = zregexp_escape s ++ zregexp_escape t)
    ∧ (∀ c ∈ metaChars, zregexp_escape [c] = ['\\', c])
    ∧ (∀ c : Char, c ∉ metaChars → zregexp_escape [c] = [c]) := by
  refine ⟨escape_nomem, by decide, escape_append, ?_, ?_⟩
  · intro c hc
    rw [escape_single, if_pos hc]
  · intro c hc
    rw [escape_single, if_neg hc]

theorem escape_spec_witness :
    zregexp_escape "abc".data = "abc".data
    ∧ zregexp_escape ['.'] = ['\\', '.']
    ∧ zregexp_escape ['a'] = ['a'] :=
  ⟨escape_spec.1 "abc".data (by decide),
   escape_spec.2.2.2.1 '.' (by decide),
   escape_spec.2.2.2.2 'a' (by decide)⟩

/-- Claim C1 counterexample: findAll of the digit pattern over the apples
input returns the matches 123 and 456, but the second match carries
start 12 and end 15 (offsets into the stored remaining suffix), not
start 25 and end 28 as claimed, and the slice of the original input between
12 and 15 is not 456. -/
theorem findAll_concrete_offsets_refute :
    (Regex.findAll digitsRe applesInput).map
        (fun cm => (cm.m.mstart, cm.m.mend, zregexp_match_slice cm.m))
      = [(10, 13, "123".data), (12, 15, "456".data)]
    ∧ ((12 : Nat), (15 : Nat)) ≠ ((25 : Nat), (28 : Nat))
    ∧ (applesInput.drop 12).take (15 - 12) ≠ "456".data := by
  refine ⟨by decide, by decide, by decide⟩

/-- Claim C1 (amended): every match returned by find satisfies
start at most end at most the input length, records the searched input, and
its matched text is the slice of that input between the offsets; every
match returned by findAll satisfies the same relative to the remaining
suffix stored with it (so its end offset is still at most the original
input length); the digit pattern over the apples input yields exactly the
matches 123 at offsets 10 to 13 and 456 at offsets 12 to 15 of its stored
suffix. -/
theorem find_findAll_bounds_amended :
    (∀ (re : Regex) (input : List Char) (cm : CppMatch),
        Regex.find re input = some cm →
        cm.m.mstart ≤ cm.m.mend ∧ cm.m.mend ≤ input.length ∧
        cm.input_ = input ∧ cm.m.minput = input ∧
        zregexp_match_slice cm.m =
          (input.drop cm.m.mstart).take (cm.m.mend - cm.m.mstart))
    ∧ (∀ (re : Regex) (input : List Char) (cm : CppMatch),
        cm ∈ Regex.findAll re input →
        cm.m.mstart ≤ cm.m.mend ∧ cm.m.mend ≤ cm.input_.length ∧
        cm.input_.length ≤ input.length ∧ cm.m.minput = cm.input_ ∧
        zregexp_match_slice cm.m =
          (cm.input_.drop cm.m.mstart).take (cm.m.mend - cm.m.mstart))
    ∧ (Regex.findAll digitsRe applesInput).map
        (fun cm => (cm.m.mstart, cm.m.mend, zregexp_match_slice cm.m))
        = [(10, 13, "123".data), (12, 15, "456".data)] := by
  refine ⟨?_, ?_, by decide⟩
  · intro re input cm h
    unfold Regex.find at h
    cases hf : zregexp_find re.handle input with
    | none => rw [hf] at h; exact absurd h (by simp)
    | some zm =>
      rw [hf] at h
      simp only [Option.some_inj] at h
      obtain rfl : (⟨zm, input⟩ : CppMatch) = cm := h
      have hb := zfind_bounds re.handle input zm hf
      refine ⟨hb.1, hb.2.1, rfl, hb.2.2, ?_⟩
      unfold zregexp_match_slice
      rw [hb.2.2]
  · intro re input cm h
    unfold Regex.findAll at h
    obtain ⟨om, hom, homeq⟩ := List.mem_map.mp h
    obtain ⟨o, zm⟩ := om
    have hfind := findAllTraceGo_mem_find re.handle input (input.length + 1) 0 o zm hom
    have hb := zfind_bounds re.handle (input.drop o) zm hfind
    rw [← homeq]
    refine ⟨hb.1, hb.2.1, ?_, hb.2.2, ?_⟩
    · rw [List.length_drop]; omega
    · unfold zregexp_match_slice
      rw [hb.2.2]

theorem find_findAll_bounds_witness :
    cmW.m.mstart ≤ cmW.m.mend ∧ cmW.m.mend ≤ "7".data.length ∧
    cmW.input_ = "7".data ∧ cmW.m.minput = "7".data ∧
    zregexp_match_slice cmW.m =
      ("7".data.drop cmW.m.mstart).take (cmW.m.mend - cmW.m.mstart) :=
  find_findAll_bounds_amended.1 digitsRe "7".data cmW (by decide)

/-- Claim C2 counterexample: with pattern being the end anchor and input a,
the first loop iteration at offset 0 finds the empty match with
start = end = 1, and the scan resumes at offset 1, which is the global end
offset of that empty match, not the end offset plus one; the zero-width
match at global position 1 is then reported a second time (both recorded
matches denote the global span from 1 to 1). -/
theorem findAll_empty_resume_refute :
    (findAllTrace dollarRe.handle "a".data).map
        (fun om => (om.1, om.2.mstart, om.2.mend))
      = [(0, 1, 1), (1, 0, 0)]
    ∧ nextOffset 0 1 = 1
    ∧ (1 : Nat) ≠ 1 + 1
    ∧ (findAllTrace dollarRe.handle "a".data).map
        (fun om => (om.1 + om.2.mstart, om.1 + om.2.mend))
      = [(1, 1), (1, 1)] := by
  refine ⟨by decide, by decide, by decide, by decide⟩

/-- Claim C2 (amended): consecutive iterations of the findAll loop are
linked exactly by the implemented rule: the next global offset equals the
previous offset plus the local end offset of the found match when that
local end is nonzero, and the previous offset plus one when it is zero; in
either case the offset strictly increases, so the scan always makes forward
progress; an empty match is advanced past only when it lies at the start of
the searched suffix, so a zero-width match at a later position can be
reported twice. -/
theorem findAll_resume_rule_amended :
    (∀ (re : ZRegexHandle) (input : List Char),
        List.Chain' (fun a b => b.1 = nextOffset a.1 a.2.mend ∧ a.1 < b.1)
          (findAllTrace re input))
    ∧ (∀ offset localEnd : Nat,
        (localEnd ≠ 0 → nextOffset offset localEnd = offset + localEnd)
        ∧ (localEnd = 0 → nextOffset offset localEnd = offset + 1)) := by
  constructor
  · intro re input
    exact findAllTraceGo_chain re input (input.length + 1) 0
  · intro offset localEnd
    constructor
    · intro h
      unfold nextOffset
      rw [if_neg h]
    · intro h
      unfold nextOffset
      rw [if_pos h]

theorem findAll_resume_rule_witness :
    nextOffset 0 1 = 0 + 1 ∧ nextOffset 5 0 = 5 + 1 :=
  ⟨(findAll_resume_rule_amended.2 0 1).1 (by decide),
   (findAll_resume_rule_amended.2 5 0).2 (by decide)⟩

/-- Claim C10: wrapper move semantics: any sequence of move constructions,
move assignments and destructions preserves the ownership invariant (at
most one wrapper holds any given handle, no held handle is freed, no
handle is freed twice); self move assignment leaves the state unchanged;
move construction transfers the source handle to the new object and nulls
the source; destruction frees the held handle exactly when it is non-null
and nulls it. -/
theorem wrapper_move_invariant :
    (∀ (s : WState) (ops : List WOp), WInv s → WInv (runOps s ops))
    ∧ (∀ (s : WState) (i : Nat), stepOp s (WOp.moveAssign i i) = s)
    ∧ (∀ (s : WState) (src : Nat), src < s.next →
        (stepOp s (WOp.moveNew src)).objs s.next = s.objs src
        ∧ (stepOp s (WOp.moveNew src)).objs src = none)
    ∧ (∀ (s : WState) (i : Nat), i < s.next → s.objs i = none →
        (stepOp s (WOp.destroy i)).freed = s.freed)
    ∧ (∀ (s : WState) (i : Nat) (h : Nat), i < s.next → s.objs i = some h →
        (stepOp s (WOp.destroy i)).freed = h :: s.freed
        ∧ (stepOp s (WOp.destroy i)).objs i = none) := by
  refine ⟨fun s ops h => runOps_inv ops s h, ?_, ?_, ?_, ?_⟩
  · intro s i
    simp [stepOp]
  · intro s src hsrc
    constructor
    · simp [stepOp, hsrc]
    · simp [stepOp, hsrc, Nat.ne_of_lt hsrc]
  · intro s i hi hnone
    simp [stepOp, hi, hnone]
  · intro s i h hi hsome
    constructor
    · simp [stepOp, hi, hsome]
    · simp [stepOp, hi, hsome]

theorem wrapper_move_invariant_witness :
    WInv (runOps s0W [WOp.moveNew 0, WOp.destroy 1])
    ∧ stepOp s0W (WOp.moveAssign 0 0) = s0W :=
  ⟨wrapper_move_invariant.1 s0W [WOp.moveNew 0, WOp.destroy 1]
    (by
      refine ⟨?_, ?_, ?_, ?_⟩
      · intro i j h hi hj
        simp only [s0W] at hi hj
        by_cases h1 : i = 0
        · by_cases h2 : j = 0
          · rw [h1, h2]
          · rw [if_neg h2] at hj
            exact absurd hj (by simp)
        · rw [if_neg h1] at hi
          exact absurd hi (by simp)
      · intro i h _
        simp [s0W]
      · simp [s0W]
      · intro i hi
        have h1 : 1 ≤ i := by simpa [s0W] using hi
        simp only [s0W]
        rw [if_neg (by omega)]),
   wrapper_move_invariant.2.1 s0W 0⟩
